import Mathlib

/-!
Shallow embedding of the svm-loader repository (src/lib.rs, src/types.rs):
a line-oriented SVMLight-style parser.  Strings are modelled as `List Char`;
Rust `f32` values are modelled as exact rationals (`ℚ`): the decimal literal
grammar of `f32::from_str` is embedded (sign, digits, fraction, exponent),
while the `inf`/`nan` word forms and binary rounding are not, since no claim
depends on them.  `usize` is modelled as `ℕ` with the 64-bit overflow bound.
-/

/-- Model of Rust `str::split(c)` on a single-character pattern, generalised
to a predicate: splits at every matching character, keeping empty pieces, so
the result is always non-empty. -/
def splitByPred (p : Char → Bool) : List Char → List (List Char)
  | [] => [[]]
  | a :: r =>
    let s := splitByPred p r
    if p a then [] :: s
    else (a :: s.headD []) :: s.tail

/-- Rust `str::split(c)` for a character `c`. -/
def splitOnChar (c : Char) (s : List Char) : List (List Char) :=
  splitByPred (fun a => a == c) s

/-- Rust `str::trim` (ASCII whitespace model). -/
def trimL (s : List Char) : List Char :=
  ((s.dropWhile Char.isWhitespace).reverse.dropWhile Char.isWhitespace).reverse

/-- Rust `str::split_whitespace`: the non-empty pieces between whitespace runs. -/
def splitWhitespaceL (s : List Char) : List (List Char) :=
  (splitByPred Char.isWhitespace s).filter (fun t => !t.isEmpty)

/-- Value of a list of decimal digit characters. -/
def digitsVal (ds : List Char) : ℕ :=
  ds.foldl (fun n d => 10 * n + (d.toNat - 48)) 0

/-- Model of Rust `usize::from_str`: an optional leading `+`, then one or
more ASCII digits, failing on overflow past `2 ^ 64 - 1`. -/
def parseUsize (s : List Char) : Option ℕ :=
  let t := match s with
    | '+' :: r => r
    | _ => s
  if !t.isEmpty && t.all Char.isDigit then
    if digitsVal t < 2 ^ 64 then some (digitsVal t) else none
  else none

/-- Exponent part of the float grammar: either nothing, or `e`/`E`, an
optional sign and one or more digits, scaling the mantissa by a power of 10. -/
def parseExp (m : ℚ) : List Char → Option ℚ
  | [] => some m
  | e :: r =>
    if e = 'e' ∨ e = 'E' then
      let sd : Bool × List Char := match r with
        | '-' :: r2 => (true, r2)
        | '+' :: r2 => (false, r2)
        | _ => (false, r)
      if !sd.2.isEmpty && sd.2.all Char.isDigit then
        some (if sd.1 then m / 10 ^ digitsVal sd.2 else m * 10 ^ digitsVal sd.2)
      else none
    else none

/-- Model of Rust `f32::from_str` on finite decimal literals: an optional
sign, an integer part and/or a fractional part, and an optional exponent.
The value is kept exact in `ℚ`. -/
def parseRat (s : List Char) : Option ℚ :=
  let nr : Bool × List Char := match s with
    | '-' :: r => (true, r)
    | '+' :: r => (false, r)
    | _ => (false, s)
  let ds := nr.2.takeWhile Char.isDigit
  let r1 := nr.2.drop ds.length
  let signed : Option ℚ → Option ℚ := fun q => q.map (fun v => if nr.1 then -v else v)
  match r1 with
  | '.' :: r2 =>
    let fs := r2.takeWhile Char.isDigit
    let r3 := r2.drop fs.length
    if ds.isEmpty && fs.isEmpty then none
    else signed (parseExp ((digitsVal (ds ++ fs) : ℚ) / 10 ^ fs.length) r3)
  | _ =>
    if ds.isEmpty then none
    else signed (parseExp (digitsVal ds : ℚ) r1)

/-- The sparse feature container of `types.rs`: `Sparse(dimension, indices,
values)`. -/
structure Sparse where
  dim : ℕ
  indices : List ℕ
  values : List ℚ
deriving DecidableEq, Repr

/-- Model of `Sparse::to_dense`: start from `dimension` zeros and write each
stored value at its stored index.  An out-of-range write (a Rust panic) is
modelled by `List.set`'s no-op; decoder outputs never reach it. -/
def Sparse.to_dense (s : Sparse) : List ℚ :=
  (s.indices.zip s.values).foldl (fun v p => v.set p.1 p.2) (List.replicate s.dim 0)

/-- Model of Rust `collect::<Option<Vec<_>>>`: all-or-nothing mapping. -/
def collectOption {α β : Type} (f : α → Option β) : List α → Option (List β)
  | [] => some []
  | a :: r =>
    match f a, collectOption f r with
    | some b, some bs => some (b :: bs)
    | _, _ => none

/-- Model of `DenseData::parse`: each token's piece after the last `:` (the
whole token when it has no `:`) must parse as a float. -/
def DenseData.parse (xs : List (List Char)) : Option (List ℚ) :=
  collectOption (fun x => ((splitOnChar ':' x).getLast?).bind parseRat) xs

/-- One token of `SparseData::parse`: the piece before the first `:` parses
as the index, the piece after it as the value; both are required. -/
def SparseData.parseTok (x : List Char) : Option (ℕ × ℚ) :=
  let p := splitOnChar ':' x
  (p.head?.bind parseUsize).bind fun i =>
    ((p.get? 1).bind parseRat).map fun v => (i, v)

/-- Stable insertion by key: a new pair goes after existing pairs whose key
is not greater, modelling Rust's stable `sort_by_key`. -/
def insertByKey (x : ℕ × ℚ) : List (ℕ × ℚ) → List (ℕ × ℚ)
  | [] => [x]
  | y :: ys => if x.1 < y.1 then x :: y :: ys else y :: insertByKey x ys

/-- Stable sort by key (model of `Vec::sort_by_key` on the index). -/
def sortByKey (l : List (ℕ × ℚ)) : List (ℕ × ℚ) :=
  l.foldl (fun acc x => insertByKey x acc) []

/-- Scan of `Vec::dedup_by_key`: drops each element whose key equals the key
of the last retained element. -/
def dedupLoop (x : ℕ × ℚ) : List (ℕ × ℚ) → List (ℕ × ℚ)
  | [] => []
  | y :: ys => if y.1 = x.1 then dedupLoop x ys else y :: dedupLoop y ys

/-- Model of `Vec::dedup_by_key` on the index: keeps the first of each run
of consecutive pairs sharing a key. -/
def dedupByKey : List (ℕ × ℚ) → List (ℕ × ℚ)
  | [] => []
  | x :: xs => x :: dedupLoop x xs

/-- Model of `SparseData::parse`: parse every token, sort by index, dedup by
index, then keep only pairs with index below the dimension and a non-zero
value, and unzip into the container. -/
def SparseData.parse (dim : ℕ) (xs : List (List Char)) : Option Sparse :=
  (collectOption SparseData.parseTok xs).map fun iv =>
    let kept := (dedupByKey (sortByKey iv)).filter
      (fun p => decide (p.1 < dim) && decide (p.2 ≠ 0))
    Sparse.mk dim (kept.map Prod.fst) (kept.map Prod.snd)

/-- Model of `Regression::process`. -/
def Regression.process (s : List Char) : Option ℚ := parseRat s

/-- Model of `BinaryClassification::process`: only the exact tokens `-1`
and `1` decode. -/
def BinaryClassification.process (s : List Char) : Option Bool :=
  if s = "-1".toList then some false
  else if s = "1".toList then some true
  else none

/-- Model of `DisjointClassification::process`. -/
def DisjointClassification.process (s : List Char) : Option ℕ := parseUsize s

/-- Model of `MultiLabelClassification::process`: split on `,`, insert every
piece that parses as `usize`, never fail. -/
def MultiLabelClassification.process (s : List Char) : Option (Finset ℕ) :=
  some ((splitOnChar ',' s).foldl
    (fun classes piece =>
      match parseUsize piece with
      | some cid => insert cid classes
      | none => classes) ∅)

/-- Model of `Tags::process`: split on `,`, insert every piece (string parse
never fails), then remove the empty string. -/
def Tags.process (s : List Char) : Option (Finset (List Char)) :=
  some (((splitOnChar ',' s).foldl (fun classes piece => insert piece classes)
    (∅ : Finset (List Char))).erase [])

/-- The decoded record `Row { y, x, qid, comment }` of `lib.rs`. -/
structure Row (T F : Type) where
  y : T
  x : F
  qid : Option ℕ
  comment : Option (List Char)
deriving DecidableEq, Repr

/-- The qid closure inside `parse_line`: a token starting with `qid:` whose
piece between the first and second `:` parses as `usize`. -/
def qidOf (tok : List Char) : Option ℕ :=
  if "qid:".toList.isPrefixOf tok then ((splitOnChar ':' tok).get? 1).bind parseUsize
  else none

/-- Target-token consumption of `parse_line`: with a target the first token
(if any) is fed to the target reader, otherwise the reader gets the empty
string and no token is consumed. -/
def targetSplit {T : Type} (tr : List Char → Option T) (has_target : Bool)
    (pieces : List (List Char)) : Option T × List (List Char) :=
  if has_target then
    match pieces with
    | [] => (none, [])
    | t :: r => (tr t, r)
  else (tr [], pieces)

/-- Tail of `parse_line` after the target token: peek the next token for a
qid (consuming it only on success, re-injecting it otherwise, as `IterCons`
does), feed the remaining tokens to the feature decoder, and assemble the
row when both decodes succeeded. -/
def finishRow {T F : Type} (dp : List (List Char) → Option F) (target : Option T)
    (rest : List (List Char)) (comment : Option (List Char)) : Option (Row T F) :=
  match rest.head?.bind qidOf with
  | some n =>
    match target, dp (rest.drop 1) with
    | some y, some x => some (Row.mk y x (some n) comment)
    | _, _ => none
  | none =>
    match target, dp rest with
    | some y, some x => some (Row.mk y x none comment)
    | _, _ => none

/-- The token-level body of `parse_line`. -/
def parseTokens {T F : Type} (tr : List Char → Option T) (dp : List (List Char) → Option F)
    (has_target : Bool) (pieces : List (List Char)) (comment : Option (List Char)) :
    Option (Row T F) :=
  finishRow dp (targetSplit tr has_target pieces).1 (targetSplit tr has_target pieces).2 comment

/-- Model of `parse_line`: a target is expected unless the raw line starts
with a space; the part before the first `#` is trimmed and tokenized; the
comment is the piece produced between the first and the second `#` by
`split('#')`. -/
def parse_line {T F : Type} (tr : List Char → Option T) (dp : List (List Char) → Option F)
    (line : List Char) : Option (Row T F) :=
  let has_target : Bool := !(line.head? == some ' ')
  let parts := splitOnChar '#' line
  parseTokens tr dp has_target (splitWhitespaceL (trimL (parts.headD []))) (parts.get? 1)

/-- One read from the line source: a line, or a read error. -/
inductive ReadResult where
  | ok : List Char → ReadResult
  | err : ReadResult
deriving DecidableEq, Repr

/-- The lines available before the source's first read error. -/
def okLines : List ReadResult → List (List Char)
  | [] => []
  | ReadResult.err :: _ => []
  | ReadResult.ok l :: r => l :: okLines r

/-- Model of `Reader::next`: read lines one at a time; end on exhaustion or
a read error; retry on a parse failure; yield the row and the remaining
source on a parse success. -/
def Reader.next {T F : Type} (tr : List Char → Option T) (dp : List (List Char) → Option F) :
    List ReadResult → Option (Row T F × List ReadResult)
  | [] => none
  | ReadResult.err :: _ => none
  | ReadResult.ok l :: rest =>
    match parse_line tr dp l with
    | some row => some (row, rest)
    | none => Reader.next tr dp rest

/-- All rows the reader yields before it ends: `Reader.next` iterated to
exhaustion. -/
def readerRows {T F : Type} (tr : List Char → Option T) (dp : List (List Char) → Option F) :
    List ReadResult → List (Row T F)
  | [] => []
  | ReadResult.err :: _ => []
  | ReadResult.ok l :: rest =>
    match parse_line tr dp l with
    | some row => row :: readerRows tr dp rest
    | none => readerRows tr dp rest

/-- Spec-side helper: the part of `s` before the first occurrence of `c`
(all of `s` when `c` does not occur). -/
def beforeChar (c : Char) (s : List Char) : List Char :=
  s.takeWhile (fun a => !(a == c))

/-- Spec-side helper: the part of `s` strictly after the first occurrence
of `c` (empty when `c` does not occur). -/
def afterChar (c : Char) (s : List Char) : List Char :=
  (s.dropWhile (fun a => !(a == c))).drop 1

/-- Spec-side helper: the part of `s` after the last character satisfying
`p` (all of `s` when none does). -/
def lastFieldP (p : Char → Bool) : List Char → List Char
  | [] => []
  | a :: r => if r.any p then lastFieldP p r else if p a then r else a :: r

/-- Spec-side pattern of the claim about group ids: the literal `qid:`
followed by one or more digits that parse as an unsigned integer. -/
def qidPatternB (tok : List Char) : Bool :=
  "qid:".toList.isPrefixOf tok && !(tok.drop 4).isEmpty
    && (tok.drop 4).all Char.isDigit && decide (digitsVal (tok.drop 4) < 2 ^ 64)

/-- Spec-side reference dense vector of a sparse container: position `j`
holds the value stored with index `j`, or `0` when `j` is unlisted. -/
def refDense (s : Sparse) : List ℚ :=
  (List.range s.dim).map (fun j =>
    (((s.indices.zip s.values).find? (fun p => decide (p.1 = j))).map Prod.snd).getD 0)

lemma splitByPred_ne_nil (p : Char → Bool) : ∀ s : List Char, splitByPred p s ≠ []
  | [] => by simp [splitByPred]
  | a :: r => by
    simp only [splitByPred]
    split <;> simp

lemma parse_line_eq {T F : Type} (tr : List Char → Option T)
    (dp : List (List Char) → Option F) (line : List Char) :
    parse_line tr dp line =
      parseTokens tr dp (!(line.head? == some ' '))
        (splitWhitespaceL (trimL ((splitOnChar '#' line).headD [])))
        ((splitOnChar '#' line).get? 1) := rfl

lemma mem_multiFold (ps : List (List Char)) :
    ∀ (acc : Finset ℕ) (n : ℕ),
      (n ∈ ps.foldl (fun classes piece =>
          match parseUsize piece with
          | some cid => insert cid classes
          | none => classes) acc)
      ↔ n ∈ acc ∨ ∃ p, p ∈ ps ∧ parseUsize p = some n := by
  induction ps with
  | nil => simp
  | cons p ps ih =>
    intro acc n
    cases h : parseUsize p with
    | none =>
      rw [List.foldl_cons]
      simp only [h, ih, List.mem_cons]
      constructor
      · rintro (hacc | ⟨q, hq, hqn⟩)
        · exact Or.inl hacc
        · exact Or.inr ⟨q, Or.inr hq, hqn⟩
      · rintro (hacc | ⟨q, (rfl | hq), hqn⟩)
        · exact Or.inl hacc
        · rw [h] at hqn; cases hqn
        · exact Or.inr ⟨q, hq, hqn⟩
    | some m =>
      rw [List.foldl_cons]
      simp only [h, ih, Finset.mem_insert, List.mem_cons]
      constructor
      · rintro ((rfl | hacc) | ⟨q, hq, hqn⟩)
        · exact Or.inr ⟨p, Or.inl rfl, by rw [h]⟩
        · exact Or.inl hacc
        · exact Or.inr ⟨q, Or.inr hq, hqn⟩
      · rintro (hacc | ⟨q, (rfl | hq), hqn⟩)
        · exact Or.inl (Or.inr hacc)
        · rw [h] at hqn; exact Or.inl (Or.inl (Option.some_injective _ hqn).symm)
        · exact Or.inr ⟨q, hq, hqn⟩

/-- Claim C8: the multi-label target decoder splits its token on commas,
keeps exactly the pieces that parse as unsigned integers as a set, never
fails, and maps the input `3,5,3,x` to the set containing 3 and 5. -/
theorem multi_label_process_spec :
    (∀ s : List Char, ∃ st, MultiLabelClassification.process s = some st ∧
      ∀ n : ℕ, n ∈ st ↔ ∃ p, p ∈ splitOnChar ',' s ∧ parseUsize p = some n)
    ∧ MultiLabelClassification.process "3,5,3,x".toList = some ({3, 5} : Finset ℕ) := by
  constructor
  · intro s
    refine ⟨_, rfl, fun n => ?_⟩
    rw [mem_multiFold]
    simp
  · have hsplit : splitOnChar ',' "3,5,3,x".toList =
        ["3".toList, "5".toList, "3".toList, "x".toList] := by decide
    have h3 : parseUsize "3".toList = some 3 := by decide
    have h5 : parseUsize "5".toList = some 5 := by decide
    have hx : parseUsize "x".toList = none := by decide
    unfold MultiLabelClassification.process
    congr 1
    apply Finset.ext
    intro n
    rw [mem_multiFold, hsplit]
    simp only [List.mem_cons, List.not_mem_nil, or_false, Finset.not_mem_empty, false_or,
      Finset.mem_insert, Finset.mem_singleton]
    constructor
    · rintro ⟨p, (rfl | rfl | rfl | rfl), hp⟩
      · rw [h3] at hp; exact Or.inl (Option.some_injective _ hp).symm
      · rw [h5] at hp; exact Or.inr (Option.some_injective _ hp).symm
      · rw [h3] at hp; exact Or.inl (Option.some_injective _ hp).symm
      · rw [hx] at hp; cases hp
    · rintro (rfl | rfl)
      · exact ⟨"3".toList, Or.inl rfl, h3⟩
      · exact ⟨"5".toList, Or.inr (Or.inl rfl), h5⟩

/-- Claim C6: the binary-classification target decoder maps the exact token
`1` to true and the exact token `-1` to false, and fails on every other
token (in particular `0`, the empty token and `+1`). -/
theorem binary_classification_spec : ∀ s : List Char,
    (BinaryClassification.process s = some true ↔ s = "1".toList)
    ∧ (BinaryClassification.process s = some false ↔ s = "-1".toList)
    ∧ (BinaryClassification.process s = none ↔ (s ≠ "1".toList ∧ s ≠ "-1".toList)) := by
  intro s
  unfold BinaryClassification.process
  by_cases h1 : s = "-1".toList
  · rw [if_pos h1]
    refine ⟨iff_of_false (by simp) ?_, iff_of_true rfl h1, iff_of_false (by simp) ?_⟩
    · intro hs; rw [h1] at hs; exact absurd hs (by decide)
    · rintro ⟨_, hb⟩; exact hb h1
  · rw [if_neg h1]
    by_cases h2 : s = "1".toList
    · rw [if_pos h2]
      refine ⟨iff_of_true rfl h2, iff_of_false (by simp) ?_, iff_of_false (by simp) ?_⟩
      · intro hs; rw [h2] at hs; exact absurd hs (by decide)
      · rintro ⟨ha, _⟩; exact ha h2
    · rw [if_neg h2]
      exact ⟨iff_of_false (by simp) h2, iff_of_false (by simp) h1,
        iff_of_true rfl ⟨h2, h1⟩⟩

/-- Claim C4: the row sequence yields exactly the successful parses of the
source lines that precede exhaustion or the first read error, in source
order; malformed lines are skipped without being surfaced, and a pull agrees
with the head of that row stream. -/
theorem reader_next_spec {T F : Type} (tr : List Char → Option T)
    (dp : List (List Char) → Option F) (src : List ReadResult) :
    readerRows tr dp src = (okLines src).filterMap (parse_line tr dp)
    ∧ (Reader.next tr dp src).map Prod.fst = (readerRows tr dp src).head?
    ∧ (∀ row rest, Reader.next tr dp src = some (row, rest) →
        readerRows tr dp src = row :: readerRows tr dp rest)
    ∧ (Reader.next tr dp src = none → readerRows tr dp src = []) := by
  induction src with
  | nil => simp [readerRows, Reader.next, okLines]
  | cons hd tl ih =>
    cases hd with
    | err => simp [readerRows, Reader.next, okLines]
    | ok l =>
      cases h : parse_line tr dp l with
      | some row =>
        refine ⟨?_, ?_, ?_, ?_⟩
        · simp [readerRows, okLines, h, ih.1]
        · simp [readerRows, Reader.next, h]
        · intro row2 rest2 hnext
          simp [Reader.next, h] at hnext
          simp [readerRows, h, hnext.1, hnext.2]
        · intro hnext
          simp [Reader.next, h] at hnext
      | none =>
        refine ⟨?_, ?_, ?_, ?_⟩
        · simp [readerRows, okLines, h, ih.1]
        · simp [readerRows, Reader.next, h, ih.2.1]
        · intro row2 rest2 hnext
          simp only [Reader.next, h] at hnext
          simp only [readerRows, h]
          exact ih.2.2.1 row2 rest2 hnext
        · intro hnext
          simp only [Reader.next, h] at hnext
          simp only [readerRows, h]
          exact ih.2.2.2 hnext

/-- Claim C10: a line that does not start with a space and whose portion
before the first `#` has no tokens produces no row, whatever the target and
feature decoders are. -/
theorem parse_line_empty_data {T F : Type} (tr : List Char → Option T)
    (dp : List (List Char) → Option F) (line : List Char)
    (h1 : line.head? ≠ some ' ')
    (h2 : splitWhitespaceL (trimL ((splitOnChar '#' line).headD [])) = []) :
    parse_line tr dp line = none := by
  rw [parse_line_eq, h2]
  have hb : (line.head? == some ' ') = false := by
    simpa using h1
  rw [hb]
  simp [parseTokens, targetSplit, finishRow]

/-- Witness for C10: the comment-only line `# note` yields no row even with
the never-failing multi-label target decoder. -/
theorem parse_line_empty_data_witness :
    parse_line MultiLabelClassification.process DenseData.parse "# note".toList = none :=
  parse_line_empty_data MultiLabelClassification.process DenseData.parse
    "# note".toList (by decide) (by decide)

/-- Claim C9: a line beginning with a space consumes no target token: the
target decoder is invoked on the empty string, and the whole token sequence
of the data portion is parsed as the optional qid token followed by the
feature tokens. -/
theorem parse_line_no_target {T F : Type} (tr : List Char → Option T)
    (dp : List (List Char) → Option F) (line : List Char)
    (h : line.head? = some ' ') :
    parse_line tr dp line =
      finishRow dp (tr [])
        (splitWhitespaceL (trimL ((splitOnChar '#' line).headD [])))
        ((splitOnChar '#' line).get? 1) := by
  rw [parse_line_eq, h]
  simp [parseTokens, targetSplit]

/-- Witness for C9: the line ` 7` decodes its target from the empty string
and treats `7` as the first feature token. -/
theorem parse_line_no_target_witness :
    parse_line MultiLabelClassification.process DenseData.parse " 7".toList =
      finishRow DenseData.parse (MultiLabelClassification.process [])
        (splitWhitespaceL (trimL ((splitOnChar '#' " 7".toList).headD [])))
        ((splitOnChar '#' " 7".toList).get? 1) :=
  parse_line_no_target MultiLabelClassification.process DenseData.parse
    " 7".toList (by decide)

lemma splitByPred_head (p : Char → Bool) :
    ∀ s : List Char, (splitByPred p s).head? = some (s.takeWhile (fun a => !p a)) := by
  intro s
  induction s with
  | nil => simp [splitByPred]
  | cons a r ih =>
    by_cases hpa : p a = true
    · simp [splitByPred, hpa]
    · rw [Bool.not_eq_true] at hpa
      cases hs : splitByPred p r with
      | nil => exact absurd hs (splitByPred_ne_nil p r)
      | cons x xs =>
        rw [hs] at ih
        simp only [List.head?_cons, Option.some.injEq] at ih
        simp [splitByPred, hpa, hs, ih]

lemma splitByPred_get1 (p : Char → Bool) :
    ∀ s : List Char, s.any p = true →
      (splitByPred p s).get? 1 =
        some (((s.dropWhile (fun a => !p a)).drop 1).takeWhile (fun a => !p a)) := by
  intro s
  induction s with
  | nil => simp
  | cons a r ih =>
    intro hany
    by_cases hpa : p a = true
    · cases hs : splitByPred p r with
      | nil => exact absurd hs (splitByPred_ne_nil p r)
      | cons x xs =>
        have hx := splitByPred_head p r
        rw [hs] at hx
        simp only [List.head?_cons, Option.some.injEq] at hx
        simp [splitByPred, hpa, hs, hx]
    · rw [Bool.not_eq_true] at hpa
      have hr : r.any p = true := by
        simpa [hpa] using hany
      cases hs : splitByPred p r with
      | nil => exact absurd hs (splitByPred_ne_nil p r)
      | cons x xs =>
        have := ih hr
        rw [hs] at this
        simpa [splitByPred, hpa, hs] using this

lemma finishRow_comment {T F : Type} (dp : List (List Char) → Option F)
    (target : Option T) (rest : List (List Char)) (c : Option (List Char))
    (row : Row T F) (h : finishRow dp target rest c = some row) :
    row.comment = c := by
  unfold finishRow at h
  split at h <;> split at h <;> cases h <;> rfl

/-- Counterexample to claim C1 as stated: on the line `1 #a#b` the produced
comment is `a`, the piece between the first and second `#`, not the entire
remainder `a#b` after the first `#`. -/
theorem parse_line_comment_counterexample :
    (parse_line DisjointClassification.process DenseData.parse "1 #a#b".toList).map
        Row.comment = some (some "a".toList)
    ∧ ("a".toList : List Char) ≠ "a#b".toList := by
  constructor
  · decide
  · decide

/-- Claim C1 as amended: for a line containing `#`, the produced row's
comment is the part of the line strictly between the first `#` and the next
`#` (the entire remainder when the line has no second `#`). -/
theorem parse_line_comment_spec {T F : Type} (tr : List Char → Option T)
    (dp : List (List Char) → Option F) (line : List Char) (row : Row T F)
    (hmem : '#' ∈ line) (hrow : parse_line tr dp line = some row) :
    row.comment = some (beforeChar '#' (afterChar '#' line)) := by
  rw [parse_line_eq] at hrow
  have hc := finishRow_comment _ _ _ _ _ hrow
  rw [hc]
  have hany : line.any (fun a => a == '#') = true := by
    rw [List.any_eq_true]
    exact ⟨'#', hmem, by simp⟩
  exact splitByPred_get1 (fun a => a == '#') line hany

/-- Witness for the amended C1 at the line `1 #a#b`. -/
theorem parse_line_comment_spec_witness :
    (Row.mk 1 ([] : List ℚ) none (some "a".toList)).comment =
      some (beforeChar '#' (afterChar '#' "1 #a#b".toList)) :=
  parse_line_comment_spec DisjointClassification.process DenseData.parse
    "1 #a#b".toList (Row.mk 1 [] none (some "a".toList)) (by decide) (by decide)

lemma splitOnChar_qid (rest : List Char) :
    splitOnChar ':' ("qid:".toList ++ rest) = "qid".toList :: splitByPred (fun a => a == ':') rest := by
  have hq : (('q' : Char) == ':') = false := by decide
  have hi : (('i' : Char) == ':') = false := by decide
  have hd : (('d' : Char) == ':') = false := by decide
  have hc : ((':' : Char) == ':') = true := by decide
  cases hs : splitByPred (fun a => a == ':') rest with
  | nil => exact absurd hs (splitByPred_ne_nil _ rest)
  | cons x xs =>
    show splitByPred (fun a => a == ':') ('q' :: 'i' :: 'd' :: ':' :: rest) = _
    simp [splitByPred, hq, hi, hd, hc, hs]

/-- Counterexample to claim C5 as stated: after the target of the line
`1 qid:2:3`, the token `qid:2:3` does not match the pattern `qid:<digits>`,
yet the parser consumes it (no feature token is left) and sets the group id
to 2. -/
theorem parse_line_qid_counterexample :
    (parse_line DisjointClassification.process DenseData.parse "1 qid:2:3".toList).map
        (fun r => (r.qid, r.x)) = some (some 2, ([] : List ℚ))
    ∧ qidPatternB "qid:2:3".toList = false := by
  constructor
  · decide
  · decide

/-- Claim C5 as amended: the token after the target is consumed and sets the
group id exactly when it starts with `qid:` and its piece between the first
and second `:` (to the end when there is no second `:`) parses as an
unsigned integer; the group id is that piece's value and any later `:`
pieces are ignored.  Any other token is left as the first feature token and
the group id stays absent. -/
theorem parse_line_qid_spec {T F : Type} (tr : List Char → Option T)
    (dp : List (List Char) → Option F) (t tok : List Char)
    (toks : List (List Char)) (c : Option (List Char)) :
    (parseTokens tr dp true (t :: tok :: toks) c =
      match qidOf tok with
      | some n =>
        match tr t, dp toks with
        | some y, some x => some (Row.mk y x (some n) c)
        | _, _ => none
      | none =>
        match tr t, dp (tok :: toks) with
        | some y, some x => some (Row.mk y x none c)
        | _, _ => none)
    ∧ (∀ n : ℕ, qidOf tok = some n ↔
        ("qid:".toList.isPrefixOf tok = true ∧
          parseUsize ((tok.drop 4).takeWhile (fun a => !(a == ':'))) = some n)) := by
  constructor
  · cases hq : qidOf tok with
    | some n => simp [parseTokens, targetSplit, finishRow, hq]
    | none => simp [parseTokens, targetSplit, finishRow, hq]
  · intro n
    unfold qidOf
    by_cases hpre : "qid:".toList.isPrefixOf tok = true
    · rw [if_pos hpre]
      obtain ⟨rest, rfl⟩ : ∃ rest, tok = "qid:".toList ++ rest := by
        have := List.isPrefixOf_iff_prefix.mp hpre
        exact this.imp (fun rest h => h.symm)
      rw [splitOnChar_qid]
      have hhead := splitByPred_head (fun a => a == ':') rest
      cases hs : splitByPred (fun a => a == ':') rest with
      | nil => exact absurd hs (splitByPred_ne_nil _ rest)
      | cons x xs =>
        rw [hs] at hhead
        simp only [List.head?_cons, Option.some.injEq] at hhead
        have hdrop : ("qid:".toList ++ rest).drop 4 = rest := rfl
        simp [hpre, hdrop, hhead]
    · rw [if_neg hpre]
      refine iff_of_false (by simp) ?_
      rintro ⟨hA, _⟩
      exact hpre hA

lemma mem_insertByKey (x : ℕ × ℚ) :
    ∀ (l : List (ℕ × ℚ)) (a : ℕ × ℚ), a ∈ insertByKey x l ↔ a = x ∨ a ∈ l := by
  intro l
  induction l with
  | nil => intro a; simp [insertByKey]
  | cons y ys ih =>
    intro a
    unfold insertByKey
    split
    · simp [List.mem_cons]
    · simp only [List.mem_cons, ih]
      tauto

lemma pairwise_insertByKey (x : ℕ × ℚ) :
    ∀ l : List (ℕ × ℚ), l.Pairwise (fun a b => a.1 ≤ b.1) →
      (insertByKey x l).Pairwise (fun a b => a.1 ≤ b.1) := by
  intro l
  induction l with
  | nil => intro _; simp [insertByKey]
  | cons y ys ih =>
    intro h
    rw [List.pairwise_cons] at h
    unfold insertByKey
    split
    · rename_i hlt
      rw [List.pairwise_cons]
      refine ⟨?_, List.pairwise_cons.mpr h⟩
      intro b hb
      rcases List.mem_cons.mp hb with rfl | hb
      · exact Nat.le_of_lt hlt
      · exact Nat.le_trans (Nat.le_of_lt hlt) (h.1 b hb)
    · rename_i hnlt
      rw [List.pairwise_cons]
      refine ⟨?_, ih h.2⟩
      intro b hb
      rcases (mem_insertByKey x ys b).mp hb with rfl | hb
      · exact Nat.le_of_not_lt hnlt
      · exact h.1 b hb

lemma foldl_insertByKey_pairwise :
    ∀ (l acc : List (ℕ × ℚ)), acc.Pairwise (fun a b => a.1 ≤ b.1) →
      (l.foldl (fun acc x => insertByKey x acc) acc).Pairwise (fun a b => a.1 ≤ b.1) := by
  intro l
  induction l with
  | nil => intro acc h; simpa using h
  | cons x xs ih =>
    intro acc h
    rw [List.foldl_cons]
    exact ih _ (pairwise_insertByKey x acc h)

lemma sortByKey_pairwise (l : List (ℕ × ℚ)) :
    (sortByKey l).Pairwise (fun a b => a.1 ≤ b.1) :=
  foldl_insertByKey_pairwise l [] (by simp)

lemma mem_dedupLoop : ∀ (l : List (ℕ × ℚ)) (x a : ℕ × ℚ), a ∈ dedupLoop x l → a ∈ l := by
  intro l
  induction l with
  | nil => intro x a h; simp [dedupLoop] at h
  | cons y ys ih =>
    intro x a h
    unfold dedupLoop at h
    split at h
    · exact List.mem_cons_of_mem y (ih x a h)
    · rcases List.mem_cons.mp h with rfl | h2
      · exact List.mem_cons_self a ys
      · exact List.mem_cons_of_mem y (ih y a h2)

lemma dedupLoop_pairwise :
    ∀ (l : List (ℕ × ℚ)) (x : ℕ × ℚ), (x :: l).Pairwise (fun a b => a.1 ≤ b.1) →
      (x :: dedupLoop x l).Pairwise (fun a b => a.1 < b.1) := by
  intro l
  induction l with
  | nil => intro x _; simp [dedupLoop]
  | cons y ys ih =>
    intro x h
    rw [List.pairwise_cons] at h
    have h2 := List.pairwise_cons.mp h.2
    unfold dedupLoop
    split
    · rename_i heq
      exact ih x (List.pairwise_cons.mpr
        ⟨fun b hb => h.1 b (List.mem_cons_of_mem y hb), h2.2⟩)
    · rename_i hne
      have hxy : x.1 < y.1 :=
        Nat.lt_of_le_of_ne (h.1 y (List.mem_cons_self y ys)) (fun he => hne he.symm)
      rw [List.pairwise_cons]
      refine ⟨?_, ih y h.2⟩
      intro b hb
      rcases List.mem_cons.mp hb with rfl | hb
      · exact hxy
      · exact Nat.lt_of_lt_of_le hxy (h2.1 b (mem_dedupLoop ys y b hb))

lemma dedupByKey_pairwise (l : List (ℕ × ℚ)) (h : l.Pairwise (fun a b => a.1 ≤ b.1)) :
    (dedupByKey l).Pairwise (fun a b => a.1 < b.1) := by
  cases l with
  | nil => simp [dedupByKey]
  | cons x xs => exact dedupLoop_pairwise xs x h

lemma sparse_parse_kept (dim : ℕ) (xs : List (List Char)) (s : Sparse)
    (h : SparseData.parse dim xs = some s) :
    ∃ l : List (ℕ × ℚ),
      s = Sparse.mk dim (l.map Prod.fst) (l.map Prod.snd)
      ∧ l.Pairwise (fun a b => a.1 < b.1)
      ∧ ∀ p ∈ l, p.1 < dim ∧ p.2 ≠ 0 := by
  unfold SparseData.parse at h
  cases hc : collectOption SparseData.parseTok xs with
  | none => rw [hc] at h; cases h
  | some iv =>
    rw [hc] at h
    rw [Option.map_some'] at h
    refine ⟨(dedupByKey (sortByKey iv)).filter
        (fun p => decide (p.1 < dim) && decide (p.2 ≠ 0)), ?_, ?_, ?_⟩
    · exact (Option.some_injective _ h).symm
    · exact List.Pairwise.sublist (List.filter_sublist _)
        (dedupByKey_pairwise _ (sortByKey_pairwise iv))
    · intro p hp
      rw [List.mem_filter] at hp
      have hp2 := hp.2
      simp only [Bool.and_eq_true, decide_eq_true_eq] at hp2
      exact hp2

/-- Claim C2: every successful sparse decode keeps its dimension, has index
and value sequences of equal length, strictly increasing indices (hence no
duplicates), all indices below the dimension and no stored value equal to
zero. -/
theorem sparse_parse_invariants (dim : ℕ) (xs : List (List Char)) (s : Sparse)
    (h : SparseData.parse dim xs = some s) :
    s.dim = dim
    ∧ s.indices.length = s.values.length
    ∧ s.indices.Pairwise (fun i j => i < j)
    ∧ (∀ i ∈ s.indices, i < dim)
    ∧ (∀ v ∈ s.values, v ≠ 0) := by
  obtain ⟨l, rfl, hpw, hmem⟩ := sparse_parse_kept dim xs s h
  refine ⟨rfl, by simp, List.pairwise_map.mpr hpw, ?_, ?_⟩
  · intro i hi
    obtain ⟨p, hp, rfl⟩ := List.mem_map.mp hi
    exact (hmem p hp).1
  · intro v hv
    obtain ⟨p, hp, rfl⟩ := List.mem_map.mp hv
    exact (hmem p hp).2

/-- Witness for C2 at dimension 4 and tokens `3:5 3:7 1:2` (a duplicated
index, out of order). -/
theorem sparse_parse_invariants_witness :
    (Sparse.mk 4 [1, 3] [2, 5]).dim = 4
    ∧ (Sparse.mk 4 [1, 3] [2, 5]).indices.length = (Sparse.mk 4 [1, 3] [2, 5]).values.length
    ∧ (Sparse.mk 4 [1, 3] [2, 5]).indices.Pairwise (fun i j => i < j)
    ∧ (∀ i ∈ (Sparse.mk 4 [1, 3] [2, 5]).indices, i < 4)
    ∧ (∀ v ∈ (Sparse.mk 4 [1, 3] [2, 5]).values, v ≠ 0) :=
  sparse_parse_invariants 4 ["3:5".toList, "3:7".toList, "1:2".toList]
    (Sparse.mk 4 [1, 3] [2, 5]) (by decide)

lemma foldl_set_length :
    ∀ (l : List (ℕ × ℚ)) (acc : List ℚ),
      (l.foldl (fun v p => v.set p.1 p.2) acc).length = acc.length := by
  intro l
  induction l with
  | nil => intro acc; rfl
  | cons p r ih =>
    intro acc
    rw [List.foldl_cons, ih, List.length_set]

lemma foldl_set_getElem?_not_mem :
    ∀ (l : List (ℕ × ℚ)) (acc : List ℚ) (j : ℕ), (∀ p ∈ l, p.1 ≠ j) →
      (l.foldl (fun v p => v.set p.1 p.2) acc)[j]? = acc[j]? := by
  intro l
  induction l with
  | nil => intro acc j _; rfl
  | cons p r ih =>
    intro acc j hne
    rw [List.foldl_cons, ih _ j (fun q hq => hne q (List.mem_cons_of_mem p hq))]
    exact List.getElem?_set_ne (hne p (List.mem_cons_self p r))

lemma foldl_set_getElem?_mem :
    ∀ (l : List (ℕ × ℚ)) (acc : List ℚ) (j : ℕ) (v : ℚ),
      l.Pairwise (fun a b => a.1 ≠ b.1) → (j, v) ∈ l → j < acc.length →
      (l.foldl (fun v p => v.set p.1 p.2) acc)[j]? = some v := by
  intro l
  induction l with
  | nil => intro acc j v _ hmem _; simp at hmem
  | cons p r ih =>
    intro acc j v hpw hmem hlt
    rw [List.pairwise_cons] at hpw
    rcases List.mem_cons.mp hmem with heq | hmem2
    · cases heq.symm
      rw [List.foldl_cons,
        foldl_set_getElem?_not_mem r _ j (fun q hq => Ne.symm (hpw.1 q hq))]
      exact List.getElem?_set_self hlt
    · rw [List.foldl_cons]
      exact ih _ j v hpw.2 hmem2 (by rw [List.length_set]; exact hlt)

lemma find?_key_of_mem :
    ∀ (l : List (ℕ × ℚ)) (j : ℕ) (v : ℚ),
      l.Pairwise (fun a b => a.1 ≠ b.1) → (j, v) ∈ l →
      l.find? (fun p => decide (p.1 = j)) = some (j, v) := by
  intro l
  induction l with
  | nil => intro j v _ hm; simp at hm
  | cons p r ih =>
    intro j v hpw hm
    rw [List.pairwise_cons] at hpw
    rcases List.mem_cons.mp hm with heq | hm2
    · cases heq.symm
      exact List.find?_cons_of_pos r (by simp)
    · have hne : ¬((fun q : ℕ × ℚ => decide (q.1 = j)) p = true) := by
        simpa using hpw.1 (j, v) hm2
      rw [List.find?_cons_of_neg r hne]
      exact ih j v hpw.2 hm2

lemma zip_map_fst_snd : ∀ l : List (ℕ × ℚ), (l.map Prod.fst).zip (l.map Prod.snd) = l := by
  intro l
  induction l with
  | nil => rfl
  | cons p r ih => simp [ih]

/-- Claim C3: the dense expansion of every successfully decoded sparse
container has length equal to the container's dimension and agrees at every
position with the reference dense vector, which holds each stored value at
its stored index and zero everywhere else. -/
theorem sparse_to_dense_spec (dim : ℕ) (xs : List (List Char)) (s : Sparse)
    (h : SparseData.parse dim xs = some s) :
    s.to_dense.length = s.dim ∧ s.to_dense = refDense s := by
  obtain ⟨l, rfl, hpw, hmem⟩ := sparse_parse_kept dim xs s h
  have hpwne : l.Pairwise (fun a b => a.1 ≠ b.1) :=
    hpw.imp (fun hab => Nat.ne_of_lt hab)
  have htd : (Sparse.mk dim (l.map Prod.fst) (l.map Prod.snd)).to_dense
      = l.foldl (fun v p => v.set p.1 p.2) (List.replicate dim 0) := by
    show ((l.map Prod.fst).zip (l.map Prod.snd)).foldl _ _ = _
    rw [zip_map_fst_snd]
  have hrd : refDense (Sparse.mk dim (l.map Prod.fst) (l.map Prod.snd))
      = (List.range dim).map
          (fun j => ((l.find? (fun p => decide (p.1 = j))).map Prod.snd).getD 0) := by
    show (List.range dim).map
        (fun j => ((((l.map Prod.fst).zip (l.map Prod.snd)).find?
          (fun p => decide (p.1 = j))).map Prod.snd).getD 0) = _
    rw [zip_map_fst_snd]
  have hlen : (Sparse.mk dim (l.map Prod.fst) (l.map Prod.snd)).to_dense.length = dim := by
    rw [htd, foldl_set_length, List.length_replicate]
  refine ⟨hlen, ?_⟩
  apply List.ext_getElem?
  intro n
  rw [htd, hrd]
  by_cases hn : n < dim
  · rw [List.getElem?_map, List.getElem?_range hn, Option.map_some']
    cases hf : l.find? (fun p => decide (p.1 = n)) with
    | some q =>
      have hq1 : q.1 = n := by simpa using List.find?_some hf
      have hqmem : q ∈ l := List.mem_of_find?_eq_some hf
      have hmem2 : (n, q.2) ∈ l := by
        rw [← hq1, Prod.mk.eta]
        exact hqmem
      rw [foldl_set_getElem?_mem l _ n q.2 hpwne hmem2
        (by rw [List.length_replicate]; exact hn)]
      simp
    | none =>
      have hnone : ∀ p ∈ l, p.1 ≠ n := by
        intro p hp
        simpa using List.find?_eq_none.mp hf p hp
      rw [foldl_set_getElem?_not_mem l _ n hnone, List.getElem?_replicate, if_pos hn]
      simp
  · have hlen2 : (l.foldl (fun v p => v.set p.1 p.2) (List.replicate dim (0 : ℚ))).length ≤ n := by
      rw [foldl_set_length, List.length_replicate]
      exact Nat.le_of_not_lt hn
    rw [List.getElem?_eq_none hlen2, List.getElem?_eq_none (by simpa using Nat.le_of_not_lt hn)]

/-- Witness for C3 at dimension 3 and tokens `2:7 0:5`. -/
theorem sparse_to_dense_spec_witness :
    (Sparse.mk 3 [0, 2] [5, 7]).to_dense.length = (Sparse.mk 3 [0, 2] [5, 7]).dim
    ∧ (Sparse.mk 3 [0, 2] [5, 7]).to_dense = refDense (Sparse.mk 3 [0, 2] [5, 7]) :=
  sparse_to_dense_spec 3 ["2:7".toList, "0:5".toList]
    (Sparse.mk 3 [0, 2] [5, 7]) (by decide)

lemma lastFieldP_not_any (p : Char → Bool) :
    ∀ s : List Char, s.any p = false → lastFieldP p s = s := by
  intro s
  induction s with
  | nil => intro _; rfl
  | cons a r ih =>
    intro h
    rw [List.any_cons, Bool.or_eq_false_iff] at h
    simp [lastFieldP, h.1, h.2]

lemma splitByPred_single (p : Char → Bool) :
    ∀ s : List Char, s.any p = false → splitByPred p s = [s] := by
  intro s
  induction s with
  | nil => intro _; rfl
  | cons a r ih =>
    intro h
    rw [List.any_cons, Bool.or_eq_false_iff] at h
    simp [splitByPred, h.1, ih h.2]

lemma splitByPred_cons_of_any (p : Char → Bool) :
    ∀ s : List Char, s.any p = true →
      splitByPred p s = (s.takeWhile (fun a => !p a))
        :: splitByPred p ((s.dropWhile (fun a => !p a)).drop 1) := by
  intro s
  induction s with
  | nil => simp
  | cons a r ih =>
    intro h
    by_cases hpa : p a = true
    · simp [splitByPred, hpa, List.takeWhile_cons, List.dropWhile_cons]
    · rw [Bool.not_eq_true] at hpa
      have hr : r.any p = true := by
        rw [List.any_cons, hpa] at h
        simpa using h
      cases hs : splitByPred p r with
      | nil => exact absurd hs (splitByPred_ne_nil p r)
      | cons x xs =>
        have := ih hr
        rw [hs] at this
        simp only [List.cons.injEq] at this
        simp [splitByPred, hpa, hs, List.takeWhile_cons, List.dropWhile_cons, this.1, this.2]

lemma dropWhile_ne_nil_of_any (p : Char → Bool) :
    ∀ s : List Char, s.any p = true → s.dropWhile (fun a => !p a) ≠ [] := by
  intro s
  induction s with
  | nil => simp
  | cons a r ih =>
    intro h
    rw [List.dropWhile_cons]
    by_cases hpa : p a = true
    · simp [hpa]
    · rw [Bool.not_eq_true] at hpa
      have hr : r.any p = true := by
        rw [List.any_cons, hpa] at h
        simpa using h
      simp only [hpa, Bool.not_false, if_pos]
      exact ih hr

lemma dropWhile_drop_length_lt (p : Char → Bool) (s : List Char) (h : s.any p = true) :
    ((s.dropWhile (fun a => !p a)).drop 1).length < s.length := by
  have h1 : (s.dropWhile (fun a => !p a)).length ≤ s.length :=
    (List.dropWhile_sublist (fun a => !p a)).length_le
  have h2 : 0 < (s.dropWhile (fun a => !p a)).length :=
    List.length_pos.mpr (dropWhile_ne_nil_of_any p s h)
  rw [List.length_drop]
  omega

lemma lastFieldP_any_step (p : Char → Bool) :
    ∀ s : List Char, s.any p = true →
      lastFieldP p s = lastFieldP p ((s.dropWhile (fun a => !p a)).drop 1) := by
  intro s
  induction s with
  | nil => simp
  | cons a r ih =>
    intro h
    by_cases hpa : p a = true
    · rw [List.dropWhile_cons]
      simp only [hpa, Bool.not_true, if_neg, Bool.false_eq_true, not_false_eq_true,
        List.drop_succ_cons, List.drop_zero]
      cases hr : r.any p with
      | true => simp [lastFieldP, hr]
      | false => simp [lastFieldP, hr, hpa, lastFieldP_not_any p r hr]
    · rw [Bool.not_eq_true] at hpa
      have hr : r.any p = true := by
        rw [List.any_cons, hpa] at h
        simpa using h
      rw [List.dropWhile_cons]
      simp only [hpa, Bool.not_false, if_pos]
      rw [← ih hr]
      simp [lastFieldP, hr]

lemma getLast?_cons_of_ne_nil {α : Type} (l : List α) (x : α) (h : l ≠ []) :
    (x :: l).getLast? = l.getLast? := by
  cases l with
  | nil => exact absurd rfl h
  | cons b t => exact List.getLast?_cons_cons

lemma splitByPred_getLast_fuel (p : Char → Bool) :
    ∀ (n : ℕ) (s : List Char), s.length ≤ n →
      (splitByPred p s).getLast? = some (lastFieldP p s) := by
  intro n
  induction n with
  | zero =>
    intro s hs
    have hnil : s = [] := List.eq_nil_of_length_eq_zero (Nat.le_zero.mp hs)
    subst hnil
    rfl
  | succ n ih =>
    intro s hs
    cases hany : s.any p with
    | false => rw [splitByPred_single p s hany, lastFieldP_not_any p s hany]; rfl
    | true =>
      rw [splitByPred_cons_of_any p s hany,
        getLast?_cons_of_ne_nil _ _ (splitByPred_ne_nil p _),
        ih _ (Nat.le_of_lt_succ
          (Nat.lt_of_lt_of_le (dropWhile_drop_length_lt p s hany) hs)),
        ← lastFieldP_any_step p s hany]

lemma splitByPred_getLast (p : Char → Bool) (s : List Char) :
    (splitByPred p s).getLast? = some (lastFieldP p s) :=
  splitByPred_getLast_fuel p s.length s Nat.le.refl

/-- Claim C7: dense decoding parses, for each token, the piece after the
last `:` (the whole token when it has no `:`); when every token's trailing
piece parses, the result is the list of parsed values in token order (so its
length is the token count), and when any token's trailing piece fails to
parse the whole decode returns nothing. -/
theorem dense_parse_spec : ∀ xs : List (List Char),
    ((∀ t ∈ xs, ∃ q, parseRat (lastFieldP (fun a => a == ':') t) = some q) →
      DenseData.parse xs =
        some (xs.map (fun t => (parseRat (lastFieldP (fun a => a == ':') t)).getD 0)))
    ∧ (∀ t ∈ xs, parseRat (lastFieldP (fun a => a == ':') t) = none →
        DenseData.parse xs = none) := by
  intro xs
  induction xs with
  | nil =>
    refine ⟨fun _ => rfl, fun t ht => ?_⟩
    simp at ht
  | cons t rest ih =>
    have hf : ∀ u : List Char, ((splitOnChar ':' u).getLast?).bind parseRat
        = parseRat (lastFieldP (fun a => a == ':') u) := by
      intro u
      rw [show splitOnChar ':' u = splitByPred (fun a => a == ':') u from rfl,
        splitByPred_getLast]
      rfl
    constructor
    · intro hall
      obtain ⟨q, hq⟩ := hall t (List.mem_cons_self t rest)
      have hrest := ih.1 (fun u hu => hall u (List.mem_cons_of_mem t hu))
      unfold DenseData.parse at hrest ⊢
      simp only [collectOption]
      rw [hf t, hq, hrest, List.map_cons]
      simp [hq]
    · intro u hu hnone
      unfold DenseData.parse
      rcases List.mem_cons.mp hu with rfl | hu2
      · simp only [collectOption, hf, hnone]
      · have hrest := ih.2 u hu2 hnone
        unfold DenseData.parse at hrest
        simp only [collectOption, hrest]
        cases ((splitOnChar ':' t).getLast?).bind parseRat <;> rfl
